import Mathlib

/-!
Verification of the koryx-serv request-processing core against its
natural-language specification.  The Go source (middleware.go, server.go)
is shallowly embedded: paths and header values are `List Char`, the
rate limiter's visitor map is a function from keys to optional visitor
records, and time is measured by integer nanoseconds (Go
`time.Duration` units), with the limiter's float refill expression
evaluated exactly and truncated toward zero as Go's float-to-int
conversion does.
-/

set_option maxHeartbeats 1000000

namespace Koryx

/-- Convert a string literal to the character-list representation used
throughout the embedding. -/
def str (s : String) : List Char := s.data

/-- A path segment: a run of characters between separators. -/
abbrev Seg := List Char

/-- The Unix path separator (the build targets Linux, so
`filepath.Separator` is `'/'`). -/
def pathSep : Char := '/'

/-- `strings.Split` on a single separator character:
`splitSep '/' "a//b" = ["a", "", "b"]`, `splitSep '/' "" = [""]`. -/
def splitSep (sep : Char) : List Char → List Seg
  | [] => [[]]
  | c :: cs =>
    let rest := splitSep sep cs
    if c = sep then [] :: rest
    else
      match rest with
      | [] => [[c]]
      | s :: ss => (c :: s) :: ss

/-- The literal segment `".."`. -/
def dotdot : List Char := ['.', '.']

/-- `strings.Contains needle hay`: does `needle` occur as a contiguous
substring of `hay`? -/
def containsSub (needle : List Char) : List Char → Bool
  | [] => needle.isPrefixOf []
  | c :: cs => needle.isPrefixOf (c :: cs) || containsSub needle cs

/-- One step of Go `path.Clean`'s segment processing.  The output stack
grows at the head; empty and `"."` segments are dropped, `".."` pops a
poppable segment (or is kept when the path is relative and nothing can
be popped; for rooted paths it is dropped at the top). -/
def cleanStep (rooted : Bool) (acc : List Seg) (seg : Seg) : List Seg :=
  if seg = [] ∨ seg = ['.'] then acc
  else if seg = dotdot then
    match acc with
    | [] => if rooted then [] else [dotdot]
    | top :: rest => if top = dotdot then seg :: top :: rest else rest
  else seg :: acc

/-- Run `cleanStep` over a list of segments. -/
def cleanStack (rooted : Bool) (acc : List Seg) (segs : List Seg) : List Seg :=
  segs.foldl (cleanStep rooted) acc

/-- The cleaned, in-order segment list of a path. -/
def cleanSegs (rooted : Bool) (segs : List Seg) : List Seg :=
  (cleanStack rooted [] segs).reverse

/-- Join segments with the path separator (`strings.Join(elems, "/")`). -/
def joinSegs : List Seg → List Char
  | [] => []
  | [s] => s
  | s :: s2 :: rest => s ++ pathSep :: joinSegs (s2 :: rest)

/-- Render a cleaned path from its rootedness flag and segments, in the
output format of Go `path.Clean` (empty segment list renders as `"/"`
when rooted and `"."` otherwise). -/
def renderPath (rooted : Bool) (segs : List Seg) : List Char :=
  match segs with
  | [] => if rooted then [pathSep] else ['.']
  | _ => (if rooted then [pathSep] else []) ++ joinSegs segs

/-- Whether a path begins with the separator. -/
def isRooted (p : List Char) : Bool :=
  match p with
  | [] => false
  | c :: _ => c = pathSep

/-- Go `filepath.Clean` on a Unix system (identical to `path.Clean`):
canonicalize `.` and `..` segments and collapse duplicate separators. -/
def goClean (p : List Char) : List Char :=
  if p = [] then ['.']
  else renderPath (isRooted p) (cleanSegs (isRooted p) (splitSep pathSep p))

/-- Go `filepath.Join` on Unix: skip leading empty elements, join the
rest with `'/'` and `Clean` the result; all-empty input yields `""`. -/
def goJoin : List (List Char) → List Char
  | [] => []
  | e :: rest => if e = [] then goJoin rest else goClean (joinSegs (e :: rest))

/-! ### Path-traversal and hidden-file middleware (middleware.go:69-103) -/

/-- Outcome of `PathTraversalMiddleware` on one request. -/
inductive PTOutcome
  /-- respond `403 Forbidden` without invoking the next handler -/
  | forbidden
  /-- forward the request to the next handler, carrying the given path -/
  | forward (cleanedPath : List Char)
deriving DecidableEq

/-- `PathTraversalMiddleware` (middleware.go:86-103): clean the URL
path with `filepath.Clean`; 403 if the cleaned path contains the
substring `".."` (`strings.Contains`), else forward with the request
path replaced by the cleaned path. -/
def pathTraversalCheck (urlPath : List Char) : PTOutcome :=
  let cleanPath := goClean urlPath
  if containsSub dotdot cleanPath then .forbidden
  else .forward cleanPath

/-- Predicate on one path part used by `BlockHiddenFilesMiddleware`:
`strings.HasPrefix(part, ".") && part != "." && part != ".."`. -/
def hiddenPartBlocked (part : Seg) : Bool :=
  ['.'].isPrefixOf part && part ≠ ['.'] && part ≠ dotdot

/-- `BlockHiddenFilesMiddleware` (middleware.go:69-83): split the
cleaned URL path on the separator; respond 403 (result `true`) iff
some part is a hidden name. -/
def blockHiddenCheck (urlPath : List Char) : Bool :=
  (splitSep pathSep (goClean urlPath)).any hiddenPartBlocked

/-! ### The resolver's filesystem path (server.go:157-188) -/

/-- The filesystem path `createFileHandler` stats and serves:
`filepath.Join(s.config.Server.RootDir, filepath.Clean(r.URL.Path))`. -/
def resolvedFsPath (rootDir urlPath : List Char) : List Char :=
  goJoin [rootDir, goClean urlPath]

/-- A plain path segment: nonempty and neither `"."` nor `".."`. -/
def plainSeg (s : Seg) : Prop := s ≠ [] ∧ s ≠ ['.'] ∧ s ≠ dotdot

instance (s : Seg) : Decidable (plainSeg s) := by
  unfold plainSeg
  exact inferInstance

/-- `q` lies within the directory `root`: `q` is exactly the cleaned
root, or the cleaned root extended by further plain segments (so `q`
can never name anything outside `root`). -/
def isWithin (root q : List Char) : Prop :=
  ∃ rest : List Seg, (∀ s ∈ rest, plainSeg s) ∧
    q = renderPath (isRooted root) (cleanSegs (isRooted root) (splitSep pathSep root) ++ rest)

/-! ### CORS middleware (middleware.go:137-189) -/

/-- The wildcard origin entry. -/
def star : List Char := ['*']

/-- `CORSConfig` (config.go). -/
structure CORSConfig where
  enabled : Bool
  allowedOrigins : List (List Char)
  allowedMethods : List (List Char)
  allowedHeaders : List (List Char)
  allowCredentials : Bool
  maxAge : Int

/-- Join a list of header values with `", "` (`strings.Join(x, ", ")`). -/
def joinComma : List (List Char) → List Char
  | [] => []
  | [s] => s
  | s :: s2 :: rest => s ++ ',' :: ' ' :: joinComma (s2 :: rest)

/-- Observable outcome of `CORSMiddleware` on one request: the CORS
response headers it sets, whether it short-circuited with
`204 No Content`, and whether it invoked the next handler. -/
structure CORSOutcome where
  allowOrigin : Option (List Char)
  allowMethods : Option (List Char)
  allowHeaders : Option (List Char)
  credentialsHeader : Bool
  maxAgeHeader : Option Int
  status : Option Nat
  callsNext : Bool
deriving DecidableEq

/-- `CORSMiddleware` (middleware.go:137-189).  `origin` is the value of
the request's `Origin` header, `method` the request method.  The
`Access-Control-Max-Age` header value is modelled by the integer that
`strconv.Itoa` would print. -/
def corsMiddleware (cfg : CORSConfig) (origin method : List Char) : CORSOutcome :=
  if ¬ cfg.enabled then
    ⟨none, none, none, false, none, none, true⟩
  else
    let allowed := cfg.allowedOrigins.any (fun a => a == star || a == origin)
    let allowOrigin : Option (List Char) :=
      if allowed then
        some (if cfg.allowedOrigins.length = 1 ∧ cfg.allowedOrigins.head? = some star
              then star else origin)
      else none
    let allowMethods : Option (List Char) :=
      if allowed ∧ cfg.allowedMethods.length > 0 then some (joinComma cfg.allowedMethods) else none
    let allowHeaders : Option (List Char) :=
      if allowed ∧ cfg.allowedHeaders.length > 0 then some (joinComma cfg.allowedHeaders) else none
    let credentials := allowed && cfg.allowCredentials
    let maxAge : Option Int :=
      if allowed ∧ cfg.maxAge > 0 then some cfg.maxAge else none
    if method = str "OPTIONS" then
      ⟨allowOrigin, allowMethods, allowHeaders, credentials, maxAge, some 204, false⟩
    else
      ⟨allowOrigin, allowMethods, allowHeaders, credentials, maxAge, none, true⟩

/-- The spec's notion of an allowed origin (for comparison with the
code): exact match against a configured origin, or the configuration
being the single wildcard entry. -/
def specCorsAllowed (cfg : CORSConfig) (origin : List Char) : Prop :=
  origin ∈ cfg.allowedOrigins ∨ cfg.allowedOrigins = [star]

instance (cfg : CORSConfig) (origin : List Char) : Decidable (specCorsAllowed cfg origin) := by
  unfold specCorsAllowed
  exact inferInstance

/-! ### Client-key extraction and the IP filter (middleware.go:296-335) -/

/-- Index of the first occurrence of a character, `none` if absent. -/
def idxOf (c : Char) (l : List Char) : Option Nat :=
  l.findIdx? (· = c)

/-- Index of the last occurrence of a character (Go `last`), `none`
if absent. -/
def lastIdxOf (c : Char) (l : List Char) : Option Nat :=
  match (l.reverse).findIdx? (· = c) with
  | none => none
  | some i => some (l.length - 1 - i)

/-- `net.SplitHostPort`, returning `some (host, port)` on success and
`none` on any of its error returns (missing port, missing `']'`, too
many colons, unexpected `'['` or `']'`). -/
def goSplitHostPort (hostport : List Char) : Option (List Char × List Char) :=
  match lastIdxOf ':' hostport with
  | none => none
  | some i =>
    if hostport.head? = some '[' then
      match idxOf ']' hostport with
      | none => none
      | some endIdx =>
        if endIdx + 1 = hostport.length then none
        else if endIdx + 1 = i then
          let host := (hostport.take endIdx).drop 1
          if (hostport.drop 1).contains '[' then none
          else if (hostport.drop (endIdx + 1)).contains ']' then none
          else some (host, hostport.drop (i + 1))
        else none
    else
      let host := hostport.take i
      if host.contains ':' then none
      else if hostport.contains '[' then none
      else if hostport.contains ']' then none
      else some (host, hostport.drop (i + 1))

/-- `strings.Trim`: drop leading and trailing characters belonging to
the cutset. -/
def goTrim (cutset : List Char) (s : List Char) : List Char :=
  ((s.dropWhile (cutset.contains ·)).reverse.dropWhile (cutset.contains ·)).reverse

/-- `clientIP` (middleware.go:329-335): host part of the remote
address, falling back to the address with `[` `]` trimmed when
`net.SplitHostPort` fails. -/
def clientIP (remoteAddr : List Char) : List Char :=
  match goSplitHostPort remoteAddr with
  | some (host, _) => host
  | none => goTrim ['[', ']'] remoteAddr

/-- Outcome of a request-filtering middleware. -/
inductive FilterOutcome
  /-- respond `403 Forbidden` without invoking the next handler -/
  | forbidden
  /-- invoke the next handler -/
  | next
deriving DecidableEq

/-- `IPFilterMiddleware` (middleware.go:296-327): blacklist checked
first by exact match on the client key; then, if the whitelist is
nonempty, the client key must appear in it. -/
def ipFilterCheck (whitelist blacklist : List (List Char)) (remoteAddr : List Char) :
    FilterOutcome :=
  if blacklist.any (· == clientIP remoteAddr) then .forbidden
  else if whitelist.length > 0 ∧ ¬ whitelist.any (· == clientIP remoteAddr) then .forbidden
  else .next

/-! ### Compression middleware (middleware.go:338-369) -/

/-- Whether `gzip.NewWriterLevel` accepts the level (it errors unless
`HuffmanOnly (-2) ≤ level ≤ BestCompression (9)`). -/
def gzipLevelOk (level : Int) : Bool :=
  -2 ≤ level && level ≤ 9

/-- Observable outcome of `CompressionMiddleware` on one request. -/
structure CompressionOutcome where
  /-- value of the `Content-Encoding` header it set, if any -/
  contentEncoding : Option (List Char)
  /-- whether body writes are routed through a gzip writer -/
  usedGzipWriter : Bool
  /-- whether the next handler is invoked -/
  callsNext : Bool
deriving DecidableEq

/-- `CompressionMiddleware` (middleware.go:338-360): pass through
untouched unless the `Accept-Encoding` header contains the substring
`"gzip"`; then set `Content-Encoding: gzip` and wrap the writer,
falling back to the original writer if the gzip writer cannot be
constructed. -/
def compressionCheck (acceptEncoding : List Char) (level : Int) : CompressionOutcome :=
  if ¬ containsSub (str "gzip") acceptEncoding then ⟨none, false, true⟩
  else if gzipLevelOk level then ⟨some (str "gzip"), true, true⟩
  else ⟨some (str "gzip"), false, true⟩

/-! ### Conditional caching in serveFile (server.go:212-229) -/

/-- Hexadecimal rendering of an integer as Go `fmt %x` prints it
(lowercase, minus sign for negative values). -/
def intHex (i : Int) : List Char :=
  if i < 0 then '-' :: Nat.toDigits 16 i.natAbs else Nat.toDigits 16 i.toNat

/-- The ETag `serveFile` computes: `fmt.Sprintf("\"%x-%x\"", modTime.Unix(), size)`. -/
def computeETag (modTimeUnix size : Int) : List Char :=
  '"' :: (intHex modTimeUnix ++ '-' :: intHex size) ++ ['"']

/-- Observable outcome of `serveFile` for a regular file. -/
structure ServeFileResult where
  /-- value of the `ETag` response header, if set -/
  etagHeader : Option (List Char)
  /-- response status (`http.ServeFile` success abstracted as 200) -/
  status : Nat
  /-- whether the response body is empty -/
  emptyBody : Bool
deriving DecidableEq

/-- `serveFile` (server.go:212-229) on a regular file whose metadata
is `(modTimeUnix, size)`.  `ifNoneMatch` is the value of the request's
`If-None-Match` header (`""` when absent, as `Header.Get` returns). -/
def serveFileModel (enableETags : Bool) (modTimeUnix size : Int)
    (ifNoneMatch : List Char) : ServeFileResult :=
  if enableETags then
    let etag := computeETag modTimeUnix size
    if ifNoneMatch ≠ [] ∧ ifNoneMatch = etag then ⟨some etag, 304, true⟩
    else ⟨some etag, 200, false⟩
  else ⟨none, 200, false⟩

/-! ### Rate limiter (middleware.go:191-272) -/

/-- `RateLimitConfig` (config.go): `requests_per_ip` is requests per
minute, `burst_size` the bucket capacity. -/
structure RateLimitConfig where
  enabled : Bool
  requestsPerIP : Int
  burstSize : Int

/-- Per-client bucket state (`visitor`, middleware.go:198-201).  Time
is measured in nanoseconds (Go `time.Duration` units) by integers. -/
structure Visitor where
  lastSeen : Int
  tokens : Int
deriving DecidableEq

/-- `time.Minute` in nanoseconds. -/
def nsPerMinute : Int := 60000000000

/-- The rate limiter's visitor map, keyed by client key. -/
abbrev VisitorMap := List Char → Option Visitor

/-- The empty visitor map (`make(map[string]*visitor)`). -/
def emptyVisitors : VisitorMap := fun _ => none

/-- Capacity derivation at the top of `allow` (middleware.go:232-238):
`BurstSize` if positive, else `RequestsPerIP` if positive, else 1. -/
def capacityOf (cfg : RateLimitConfig) : Int :=
  let c1 := if cfg.burstSize ≤ 0 then cfg.requestsPerIP else cfg.burstSize
  if c1 ≤ 0 then 1 else c1

/-- The refill `allow` computes: `int(elapsed.Minutes() *
float64(RequestsPerIP))`.  The exact value of the float expression is
the rational `elapsed * rpp / nsPerMinute`, and Go's float-to-int
conversion truncates toward zero, which on the exact value is
`Int.tdiv`. -/
def refillOf (elapsed rpp : Int) : Int :=
  (elapsed * rpp).tdiv nsPerMinute

/-- `RateLimiter.allow` (middleware.go:228-272) at time `now`
(nanoseconds): returns the boolean decision and the updated visitor
map.  A fresh key is created with `capacity - 1` tokens (clamped at
0); otherwise tokens are refilled based on elapsed time, capped at
capacity, `lastSeen` is updated, and a token is consumed iff any are
left (`v.tokens > 0`).  The source's allow and deny returns are merged
into a single map update whose stored token count is conditional. -/
def rlAllow (cfg : RateLimitConfig) (visitors : VisitorMap) (now : Int)
    (ip : List Char) : Bool × VisitorMap :=
  let capacity := capacityOf cfg
  match visitors ip with
  | none =>
    let init0 := capacity - 1
    let initialTokens := if init0 < 0 then 0 else init0
    (true, fun k => if k = ip then some ⟨now, initialTokens⟩ else visitors k)
  | some v =>
    let elapsed := now - v.lastSeen
    let tokensToAdd := refillOf elapsed cfg.requestsPerIP
    let t0 := v.tokens + tokensToAdd
    let t := if t0 > capacity then capacity else t0
    let newTokens := if 0 < t then t - 1 else t
    (decide (0 < t), fun k => if k = ip then some ⟨now, newTokens⟩ else visitors k)

/-- One pass of `cleanupVisitors` (middleware.go:215-226) at time
`now`: delete every entry whose `lastSeen` is more than
`3*time.Minute` old. -/
def rlCleanup (visitors : VisitorMap) (now : Int) : VisitorMap :=
  fun k =>
    match visitors k with
    | some v => if now - v.lastSeen > 3 * nsPerMinute then none else some v
    | none => none

/-- An operation on the rate limiter's shared state. -/
inductive RLOp
  /-- an `allow(ip)` call on behalf of a request -/
  | allowReq (ip : List Char)
  /-- one pass of the background eviction sweep -/
  | sweep

/-- Apply one timestamped operation to the visitor map. -/
def rlStep (cfg : RateLimitConfig) (vis : VisitorMap) (now : Int) : RLOp → VisitorMap
  | .allowReq ip => (rlAllow cfg vis now ip).2
  | .sweep => rlCleanup vis now

/-- Run a timestamped operation sequence. -/
def rlRun (cfg : RateLimitConfig) : VisitorMap → List (Int × RLOp) → VisitorMap
  | vis, [] => vis
  | vis, (t, op) :: rest => rlRun cfg (rlStep cfg vis t op) rest

/-- Timestamps of an operation sequence are at least `t` and
nondecreasing (wall-clock time is monotone). -/
def timesChain : Int → List (Int × RLOp) → Prop
  | _, [] => True
  | t, (t1, _) :: rest => t ≤ t1 ∧ timesChain t1 rest

/-- The visitor-map invariant at time `t`: every stored bucket has
`0 ≤ tokens ≤ capacity` and was last seen no later than `t`. -/
def rlInv (cfg : RateLimitConfig) (t : Int) (vis : VisitorMap) : Prop :=
  ∀ k v, vis k = some v → 0 ≤ v.tokens ∧ v.tokens ≤ capacityOf cfg ∧ v.lastSeen ≤ t

/-- The time at the end of a timestamped operation sequence starting
at `t`. -/
def lastTime (t : Int) : List (Int × RLOp) → Int
  | [] => t
  | (t1, _) :: rest => lastTime t1 rest

/-- The refill as the spec phrases it:
`floor(elapsedMinutes × requestsPerPeriod)` on exact values, with
`elapsedMinutes = elapsed / nsPerMinute`. -/
def specRefill (elapsed rpp : Int) : Int :=
  ⌊(elapsed : ℚ) / (nsPerMinute : ℚ) * (rpp : ℚ)⌋

/-! ### General lemmas about the embedded string and list functions -/

theorem containsSub_spec (n h : List Char) :
    containsSub n h = true ↔ n <:+: h := by
  induction h with
  | nil =>
    simp [containsSub, List.isPrefixOf_iff_prefix]
  | cons c cs ih =>
    simp [containsSub, List.isPrefixOf_iff_prefix, ih, List.infix_cons_iff]

theorem singleton_isPrefixOf_iff (c : Char) (l : List Char) :
    [c].isPrefixOf l = true ↔ l.head? = some c := by
  rw [List.isPrefixOf_iff_prefix]
  cases l with
  | nil => simp
  | cons a as =>
    rw [List.prefix_cons_iff]
    constructor
    · rintro (h | ⟨t, ht, -⟩)
      · exact absurd h (by simp)
      · rw [List.cons_eq_cons] at ht
        rw [List.head?_cons, ht.1]
    · intro h
      rw [List.head?_cons, Option.some_inj] at h
      exact Or.inr ⟨[], by rw [h], List.nil_prefix⟩

theorem capacityOf_pos (cfg : RateLimitConfig) : 1 ≤ capacityOf cfg := by
  dsimp only [capacityOf]
  split_ifs <;> omega

theorem refillOf_eq_specRefill (elapsed rpp : Int)
    (helapsed : 0 ≤ elapsed) (hrpp : 0 ≤ rpp) :
    refillOf elapsed rpp = specRefill elapsed rpp := by
  unfold refillOf specRefill
  have h1 : (elapsed : ℚ) / (nsPerMinute : ℚ) * (rpp : ℚ)
      = ((elapsed * rpp : ℤ) : ℚ) / ((60000000000 : ℕ) : ℚ) := by
    push_cast [nsPerMinute]
    ring
  rw [h1, Rat.floor_intCast_div_natCast,
    Int.tdiv_eq_ediv (by positivity) (by norm_num [nsPerMinute])]
  norm_num [nsPerMinute]

theorem refillOf_nonneg (elapsed rpp : Int)
    (helapsed : 0 ≤ elapsed) (hrpp : 0 ≤ rpp) : 0 ≤ refillOf elapsed rpp :=
  Int.tdiv_nonneg (by positivity) (by norm_num [nsPerMinute])

/-! ### Claim C7: hidden-file blocking -/

/-- C7: with hidden-file blocking enabled, a request is rejected with
403 (without reaching the next handler) if and only if some segment of
the canonicalized URL path starts with `'.'`, excluding the literal
`"."` and `".."` segments; in particular `/index.html` and
`/style.css` are allowed while `/.env`, `/.git/config` and
`/dir/.hidden` are rejected. -/
theorem blockHidden_spec :
    (∀ p : List Char, blockHiddenCheck p = true ↔
      ∃ part ∈ splitSep pathSep (goClean p),
        part.head? = some '.' ∧ part ≠ ['.'] ∧ part ≠ dotdot) ∧
    blockHiddenCheck (str "/index.html") = false ∧
    blockHiddenCheck (str "/style.css") = false ∧
    blockHiddenCheck (str "/.env") = true ∧
    blockHiddenCheck (str "/.git/config") = true ∧
    blockHiddenCheck (str "/dir/.hidden") = true := by
  refine ⟨?_, by decide, by decide, by decide, by decide, by decide⟩
  intro p
  unfold blockHiddenCheck hiddenPartBlocked
  rw [List.any_eq_true]
  constructor
  · rintro ⟨part, hmem, hpart⟩
    simp only [Bool.and_eq_true, decide_eq_true_eq, singleton_isPrefixOf_iff] at hpart
    exact ⟨part, hmem, hpart.1.1, hpart.1.2, hpart.2⟩
  · rintro ⟨part, hmem, h1, h2, h3⟩
    refine ⟨part, hmem, ?_⟩
    simp only [Bool.and_eq_true, decide_eq_true_eq, singleton_isPrefixOf_iff]
    exact ⟨⟨h1, h2⟩, h3⟩

/-! ### Claim C8: ETag round-trip -/

/-- C8: with ETags enabled, serving a regular file sets a cache
validator derived deterministically from its modification time and
size, and a repeat request carrying exactly that validator while the
metadata is unchanged yields `304 Not Modified` with an empty body.
`[]` is the absent `If-None-Match` header (`Header.Get` yields `""`). -/
theorem serveFile_etag_roundtrip (modTimeUnix size : Int) :
    serveFileModel true modTimeUnix size []
      = ⟨some (computeETag modTimeUnix size), 200, false⟩ ∧
    serveFileModel true modTimeUnix size (computeETag modTimeUnix size)
      = ⟨some (computeETag modTimeUnix size), 304, true⟩ := by
  constructor
  · simp [serveFileModel]
  · simp [serveFileModel, computeETag]

/-! ### Claim C10: compression only on gzip-accepting requests -/

/-- C10: the compression interceptor applies gzip (setting
`Content-Encoding: gzip` and routing writes through a gzip writer)
only when the `Accept-Encoding` header contains the substring
`"gzip"`; any other request is forwarded with the original response
writer, no `Content-Encoding` header, and an identity body. -/
theorem compression_gzip_only_when_accepted (acceptEncoding : List Char) (level : Int) :
    ((compressionCheck acceptEncoding level).usedGzipWriter = true →
      containsSub (str "gzip") acceptEncoding = true) ∧
    ((compressionCheck acceptEncoding level).contentEncoding ≠ none →
      containsSub (str "gzip") acceptEncoding = true) ∧
    (containsSub (str "gzip") acceptEncoding = false →
      compressionCheck acceptEncoding level = ⟨none, false, true⟩) := by
  unfold compressionCheck
  rcases h : containsSub (str "gzip") acceptEncoding <;> simp [h]

/-- Witness for C10 at concrete inputs. -/
theorem compression_gzip_witness :
    compressionCheck (str "identity") 6 = ⟨none, false, true⟩ :=
  (compression_gzip_only_when_accepted (str "identity") 6).2.2 (by decide)

/-! ### Claim C3: path-traversal middleware -/

/-- C3 counterexample: on the request path `"/a..b"` the middleware
responds 403, yet the canonical form `"/a..b"` contains no literal
`".."` segment — refuting the claim that 403 happens only when a
`".."` segment survives canonicalization. -/
theorem pathTraversal_rejects_nonsegment_dotdot :
    pathTraversalCheck (str "/a..b") = .forbidden ∧
    ¬ dotdot ∈ splitSep pathSep (goClean (str "/a..b")) := by
  decide

/-- C3 (amended): the path-normalization interceptor canonicalizes the
request path and responds 403 without invoking the next handler if and
only if the canonical form contains `".."` as a substring (not
necessarily as a whole segment); otherwise it forwards the request
carrying the canonical path. -/
theorem pathTraversal_amended (p : List Char) :
    (pathTraversalCheck p = .forbidden ↔ dotdot <:+: goClean p) ∧
    (¬ dotdot <:+: goClean p → pathTraversalCheck p = .forward (goClean p)) := by
  unfold pathTraversalCheck
  rcases h : containsSub dotdot (goClean p) with - | -
  · have hni : ¬ dotdot <:+: goClean p := by
      rw [← containsSub_spec, h]
      simp
    simp [h, hni]
  · have hi : dotdot <:+: goClean p := (containsSub_spec _ _).mp h
    simp [h, hi]

/-- Witness for C3's amended theorem at a concrete input. -/
theorem pathTraversal_amended_witness :
    pathTraversalCheck (str "/x/./y/../z") = .forward (str "/x/z") :=
  (pathTraversal_amended (str "/x/./y/../z")).2
    (by rw [← containsSub_spec]; decide)

/-! ### Claim C6: IP filter and fail-closed -/

/-- C6 counterexample: with a deny-list filter active and the
unparseable remote address `"garbage"` (no port, so
`net.SplitHostPort` fails), the filter silently allows the request —
refuting the claim that every ambiguous or unparseable client address
is rejected whenever an allow-list or deny-list filter is active. -/
theorem ipFilter_denylist_allows_unparseable :
    goSplitHostPort (str "garbage") = none ∧
    ipFilterCheck [] [str "10.0.0.1"] (str "garbage") = .next := by
  decide

/-- C6 (amended): the filter rejects exactly the requests whose
extracted client key matches a deny entry or, when an allow-list is
active, fails to appear in it.  With an allow-list active any address
whose extracted key is not listed — including unparseable ones — is
rejected; a deny-list-only filter allows every address whose extracted
key matches no deny entry, even unparseable ones. -/
theorem any_beq_iff_mem (l : List (List Char)) (x : List Char) :
    (l.any (· == x)) = true ↔ x ∈ l := by
  rw [List.any_eq_true]
  constructor
  · rintro ⟨y, hy, he⟩
    rw [beq_iff_eq] at he
    exact he ▸ hy
  · intro hmem
    exact ⟨x, hmem, by simp⟩

theorem ipFilter_amended (wl bl : List (List Char)) (addr : List Char) :
    (ipFilterCheck wl bl addr = .next ↔
      ¬ clientIP addr ∈ bl ∧ (wl = [] ∨ clientIP addr ∈ wl)) ∧
    (wl ≠ [] → ¬ clientIP addr ∈ wl → ipFilterCheck wl bl addr = .forbidden) := by
  by_cases hbl : clientIP addr ∈ bl
  · have e : ipFilterCheck wl bl addr = .forbidden := by
      unfold ipFilterCheck
      rw [if_pos ((any_beq_iff_mem bl _).2 hbl)]
    rw [e]
    exact ⟨⟨fun hc => absurd hc (by simp), fun hand => absurd hbl hand.1⟩,
      fun _ _ => rfl⟩
  · have hbl2 : ¬ (bl.any (· == clientIP addr) = true) :=
      fun hc => hbl ((any_beq_iff_mem bl _).1 hc)
    by_cases hwl : wl = []
    · have e : ipFilterCheck wl bl addr = .next := by
        unfold ipFilterCheck
        rw [if_neg hbl2, if_neg]
        rintro ⟨hlen, -⟩
        rw [hwl] at hlen
        simp at hlen
      rw [e]
      exact ⟨⟨fun _ => ⟨hbl, Or.inl hwl⟩, fun _ => rfl⟩, fun hne => absurd hwl hne⟩
    · by_cases hmem : clientIP addr ∈ wl
      · have e : ipFilterCheck wl bl addr = .next := by
          unfold ipFilterCheck
          rw [if_neg hbl2, if_neg]
          rintro ⟨-, hnot⟩
          exact hnot ((any_beq_iff_mem wl _).2 hmem)
        rw [e]
        exact ⟨⟨fun _ => ⟨hbl, Or.inr hmem⟩, fun _ => rfl⟩, fun _ h => absurd hmem h⟩
      · have e : ipFilterCheck wl bl addr = .forbidden := by
          unfold ipFilterCheck
          rw [if_neg hbl2, if_pos]
          exact ⟨List.length_pos.2 hwl, fun hc => hmem ((any_beq_iff_mem wl _).1 hc)⟩
        rw [e]
        refine ⟨⟨fun hc => absurd hc (by simp), ?_⟩, fun _ _ => rfl⟩
        rintro ⟨-, h | h⟩
        · exact absurd h hwl
        · exact absurd h hmem

/-- Witness for C6's amended theorem at concrete inputs: an allow-list
filter rejects an unparseable address not on the list. -/
theorem ipFilter_amended_witness :
    ipFilterCheck [str "1.2.3.4"] [] (str "garbage") = .forbidden :=
  (ipFilter_amended [str "1.2.3.4"] [] (str "garbage")).2 (by decide) (by decide)

/-! ### Claim C9: per-key isolation of the rate limiter -/

/-- C9: an `allow(ip)` call leaves every other key's stored visitor
state unchanged, and the admission decision for a key depends only on
that key's own entry, so one key's exhaustion never affects another
key. -/
theorem rlAllow_frame (cfg : RateLimitConfig) (vis : VisitorMap) (now : Int)
    (ip ip2 : List Char) (h : ip2 ≠ ip) :
    (rlAllow cfg vis now ip).2 ip2 = vis ip2 ∧
    (∀ vis2 : VisitorMap, vis2 ip2 = vis ip2 →
      (rlAllow cfg vis2 now ip2).1 = (rlAllow cfg vis now ip2).1) := by
  constructor
  · cases hv : vis ip with
    | none => simp [rlAllow, hv, h]
    | some v => simp [rlAllow, hv, h]
  · intro vis2 h2
    cases hv : vis ip2 with
    | none => simp [rlAllow, hv, h2]
    | some v => simp [rlAllow, hv, h2]

/-- Witness for C9 at concrete inputs. -/
theorem rlAllow_frame_witness :
    (rlAllow ⟨true, 2, 2⟩ emptyVisitors 0 (str "a")).2 (str "b")
      = emptyVisitors (str "b") :=
  (rlAllow_frame ⟨true, 2, 2⟩ emptyVisitors 0 (str "a") (str "b") (by decide)).1

/-! ### Claim C1: token-bucket behaviour of allow -/

/-- Counterexample configuration: capacity from `burstSize = 2`,
negative `requestsPerIP`. -/
def rlCfgNeg : RateLimitConfig := ⟨true, -100, 2⟩

/-- The spec's example configuration: capacity 2, 2 requests per
minute. -/
def rlCfgTwo : RateLimitConfig := ⟨true, 2, 2⟩

/-- C1 counterexample: with `burstCapacity = 2` and
`requestsPerPeriod = −100` (a configuration the claim quantifies
over), the second `allow` call one minute after the first returns
false with stored tokens −99, refuting the claim's "otherwise returns
false with tokens unchanged at 0". -/
theorem rlAllow_deny_tokens_negative :
    (rlAllow rlCfgNeg (rlAllow rlCfgNeg emptyVisitors 0 (str "k")).2
        nsPerMinute (str "k")).1 = false ∧
    (rlAllow rlCfgNeg (rlAllow rlCfgNeg emptyVisitors 0 (str "k")).2
        nsPerMinute (str "k")).2 (str "k") = some ⟨nsPerMinute, -99⟩ := by
  decide

/-- C1 (amended): the first `allow(key)` call creates the key's state
with `tokens = capacity − 1` and returns true; for configurations with
`requestsPerPeriod ≥ 0`, every subsequent call (from a reachable
state: `0 ≤ tokens`, `lastSeen ≤ now`) adds
`floor(elapsedMinutes × requestsPerPeriod)` tokens capped at capacity,
updates `lastSeen` to `now`, returns true and decrements exactly when
the refilled count is positive, and otherwise returns false with
tokens at 0.  With capacity 2 and no elapsed time, calls 1 and 2 from
a fresh key return true and call 3 returns false. -/
theorem rlAllow_token_bucket (cfg : RateLimitConfig) (vis : VisitorMap)
    (now : Int) (ip : List Char) :
    (vis ip = none →
      (rlAllow cfg vis now ip).1 = true ∧
      (rlAllow cfg vis now ip).2 ip = some ⟨now, capacityOf cfg - 1⟩) ∧
    (∀ v : Visitor, vis ip = some v → 0 ≤ cfg.requestsPerIP →
      v.lastSeen ≤ now → 0 ≤ v.tokens →
      ((rlAllow cfg vis now ip).2 ip = some ⟨now,
        if 0 < min (capacityOf cfg)
            (v.tokens + specRefill (now - v.lastSeen) cfg.requestsPerIP)
        then min (capacityOf cfg)
            (v.tokens + specRefill (now - v.lastSeen) cfg.requestsPerIP) - 1
        else min (capacityOf cfg)
            (v.tokens + specRefill (now - v.lastSeen) cfg.requestsPerIP)⟩) ∧
      ((rlAllow cfg vis now ip).1 = true ↔
        0 < min (capacityOf cfg)
          (v.tokens + specRefill (now - v.lastSeen) cfg.requestsPerIP)) ∧
      ((rlAllow cfg vis now ip).1 = false →
        min (capacityOf cfg)
          (v.tokens + specRefill (now - v.lastSeen) cfg.requestsPerIP) = 0)) ∧
    ((rlAllow rlCfgTwo emptyVisitors 0 (str "k")).1 = true ∧
     (rlAllow rlCfgTwo (rlAllow rlCfgTwo emptyVisitors 0 (str "k")).2 0
        (str "k")).1 = true ∧
     (rlAllow rlCfgTwo (rlAllow rlCfgTwo (rlAllow rlCfgTwo emptyVisitors 0
        (str "k")).2 0 (str "k")).2 0 (str "k")).1 = false) := by
  have hcap := capacityOf_pos cfg
  refine ⟨?_, ?_, by decide⟩
  · intro hnone
    simp only [rlAllow, hnone]
    rw [if_neg (by omega : ¬ capacityOf cfg - 1 < 0)]
    simp
  · intro v hv hrpp hls htok
    have helapsed : (0:Int) ≤ now - v.lastSeen := by omega
    have hrefill := refillOf_eq_specRefill (now - v.lastSeen) cfg.requestsPerIP
      helapsed hrpp
    have hrnn := refillOf_nonneg (now - v.lastSeen) cfg.requestsPerIP helapsed hrpp
    simp only [rlAllow, hv]
    rw [hrefill] at hrnn ⊢
    have hmin : (if v.tokens + specRefill (now - v.lastSeen) cfg.requestsPerIP
          > capacityOf cfg then capacityOf cfg
        else v.tokens + specRefill (now - v.lastSeen) cfg.requestsPerIP)
        = min (capacityOf cfg)
            (v.tokens + specRefill (now - v.lastSeen) cfg.requestsPerIP) := by
      rcases le_or_lt (v.tokens + specRefill (now - v.lastSeen) cfg.requestsPerIP)
        (capacityOf cfg) with hle | hlt
      · rw [if_neg (not_lt.2 hle), min_eq_right hle]
      · rw [if_pos hlt, min_eq_left hlt.le]
    rw [hmin]
    have h0t : 0 ≤ min (capacityOf cfg)
        (v.tokens + specRefill (now - v.lastSeen) cfg.requestsPerIP) :=
      le_min (by omega) (by omega)
    refine ⟨by simp, by simp, ?_⟩
    intro hfalse
    rw [decide_eq_false_iff_not, not_lt] at hfalse
    omega

/-- A one-entry visitor map used by C1's witness. -/
def visW : VisitorMap := fun k => if k = str "k" then some ⟨0, 1⟩ else none

/-- Witness for C1's amended theorem at concrete inputs: a fresh key
and a subsequent call one minute later. -/
theorem rlAllow_token_bucket_witness :
    ((rlAllow rlCfgTwo emptyVisitors 0 (str "k")).1 = true ∧
     (rlAllow rlCfgTwo emptyVisitors 0 (str "k")).2 (str "k")
       = some ⟨0, capacityOf rlCfgTwo - 1⟩) ∧
    ((rlAllow rlCfgTwo visW nsPerMinute (str "k")).1 = true ↔
      0 < min (capacityOf rlCfgTwo)
        (1 + specRefill (nsPerMinute - 0) rlCfgTwo.requestsPerIP)) :=
  ⟨(rlAllow_token_bucket rlCfgTwo emptyVisitors 0 (str "k")).1 rfl,
   ((rlAllow_token_bucket rlCfgTwo visW nsPerMinute (str "k")).2.1 ⟨0, 1⟩
     (by decide) (by decide) (by decide) (by decide)).2.1⟩

/-! ### Claim C4: token bounds over arbitrary operation sequences -/

theorem rlStep_upper (cfg : RateLimitConfig) (vis : VisitorMap) (now : Int)
    (op : RLOp) (h : ∀ k v, vis k = some v → v.tokens ≤ capacityOf cfg) :
    ∀ k v, rlStep cfg vis now op k = some v → v.tokens ≤ capacityOf cfg := by
  have hcap := capacityOf_pos cfg
  intro k v hk
  cases op with
  | sweep =>
    unfold rlStep rlCleanup at hk
    dsimp only at hk
    cases hvk : vis k with
    | none => rw [hvk] at hk; cases hk
    | some v2 =>
      rw [hvk] at hk
      dsimp only at hk
      split at hk
      · cases hk
      · injection hk with h2
        subst h2
        exact h k v2 hvk
  | allowReq ip =>
    unfold rlStep rlAllow at hk
    dsimp only at hk
    cases hv : vis ip with
    | none =>
      rw [hv] at hk
      dsimp only at hk
      by_cases hkip : k = ip
      · rw [if_pos hkip] at hk
        injection hk with h2
        subst h2
        dsimp only
        split_ifs <;> omega
      · rw [if_neg hkip] at hk
        exact h k v hk
    | some v2 =>
      rw [hv] at hk
      dsimp only at hk
      by_cases hkip : k = ip
      · rw [if_pos hkip] at hk
        injection hk with h2
        subst h2
        dsimp only
        split_ifs <;> omega
      · rw [if_neg hkip] at hk
        exact h k v hk

theorem rlStep_inv (cfg : RateLimitConfig) (vis : VisitorMap) (t now : Int)
    (op : RLOp) (hrpp : 0 ≤ cfg.requestsPerIP) (ht : t ≤ now)
    (h : rlInv cfg t vis) : rlInv cfg now (rlStep cfg vis now op) := by
  have hcap := capacityOf_pos cfg
  intro k v hk
  cases op with
  | sweep =>
    unfold rlStep rlCleanup at hk
    dsimp only at hk
    cases hvk : vis k with
    | none => rw [hvk] at hk; cases hk
    | some v2 =>
      rw [hvk] at hk
      dsimp only at hk
      split at hk
      · cases hk
      · injection hk with h2
        subst h2
        obtain ⟨h1, h2, h3⟩ := h k v2 hvk
        exact ⟨h1, h2, by omega⟩
  | allowReq ip =>
    unfold rlStep rlAllow at hk
    dsimp only at hk
    cases hv : vis ip with
    | none =>
      rw [hv] at hk
      dsimp only at hk
      by_cases hkip : k = ip
      · rw [if_pos hkip] at hk
        injection hk with h2
        subst h2
        refine ⟨?_, ?_, le_refl now⟩ <;> dsimp only <;> split_ifs <;> omega
      · rw [if_neg hkip] at hk
        obtain ⟨h1, h2, h3⟩ := h k v hk
        exact ⟨h1, h2, by omega⟩
    | some v2 =>
      rw [hv] at hk
      dsimp only at hk
      by_cases hkip : k = ip
      · rw [if_pos hkip] at hk
        obtain ⟨h1, h2, h3⟩ := h ip v2 hv
        have hrnn : 0 ≤ refillOf (now - v2.lastSeen) cfg.requestsPerIP :=
          refillOf_nonneg _ _ (by omega) hrpp
        injection hk with h4
        subst h4
        refine ⟨?_, ?_, le_refl now⟩ <;> dsimp only <;> split_ifs <;> omega
      · rw [if_neg hkip] at hk
        obtain ⟨h1, h2, h3⟩ := h k v hk
        exact ⟨h1, h2, by omega⟩

theorem rlRun_inv_chain (cfg : RateLimitConfig) (ops : List (Int × RLOp)) :
    ∀ t vis, 0 ≤ cfg.requestsPerIP → timesChain t ops → rlInv cfg t vis →
      rlInv cfg (lastTime t ops) (rlRun cfg vis ops) := by
  induction ops with
  | nil => exact fun t vis _ _ h => h
  | cons hd tl ih =>
    rintro t vis hrpp ⟨hle, hchain⟩ h
    exact ih hd.1 _ hrpp hchain (rlStep_inv cfg vis t hd.1 hd.2 hrpp hle h)

theorem rlRun_upper_chain (cfg : RateLimitConfig) (ops : List (Int × RLOp)) :
    ∀ vis, (∀ k v, vis k = some v → v.tokens ≤ capacityOf cfg) →
      ∀ k v, rlRun cfg vis ops k = some v → v.tokens ≤ capacityOf cfg := by
  induction ops with
  | nil => exact fun vis h => h
  | cons hd tl ih =>
    intro vis h
    exact ih _ (rlStep_upper cfg vis hd.1 hd.2 h)

/-- Operation sequence whose timestamps are not monotone is never
produced by a real execution; the counterexample below uses a monotone
one. -/
def rlOpsNeg : List (Int × RLOp) :=
  [(0, .allowReq (str "k")), (nsPerMinute, .allowReq (str "k"))]

/-- C4 counterexample: with `requestsPerPeriod = −100` (a
configuration the claim explicitly includes), a monotone trace of two
`allow` calls leaves the stored state at `tokens = −99`, violating
`0 ≤ tokens`. -/
theorem rlRun_negative_tokens :
    timesChain 0 rlOpsNeg ∧
    rlRun rlCfgNeg emptyVisitors rlOpsNeg (str "k")
      = some ⟨nsPerMinute, -99⟩ := by
  constructor
  · refine ⟨le_refl 0, ?_, trivial⟩
    norm_num [nsPerMinute]
  · decide

/-- C4 (amended): along every timestamped operation sequence of
`allow` calls and eviction sweeps (any intermediate point is the end
of some such sequence), every stored visitor state satisfies
`tokens ≤ capacity` unconditionally, and `0 ≤ tokens` additionally
holds whenever `requestsPerPeriod ≥ 0` and timestamps are monotone;
with a negative `requestsPerPeriod` the lower bound fails. -/
theorem rlRun_token_bounds (cfg : RateLimitConfig) (ops : List (Int × RLOp))
    (t0 : Int) :
    (∀ k v, rlRun cfg emptyVisitors ops k = some v →
      v.tokens ≤ capacityOf cfg) ∧
    (0 ≤ cfg.requestsPerIP → timesChain t0 ops →
      ∀ k v, rlRun cfg emptyVisitors ops k = some v →
        0 ≤ v.tokens ∧ v.tokens ≤ capacityOf cfg) := by
  constructor
  · exact rlRun_upper_chain cfg ops emptyVisitors (fun k v h => nomatch h)
  · intro hrpp hchain k v hk
    have hinv := rlRun_inv_chain cfg ops t0 emptyVisitors hrpp hchain
      (fun k v h => nomatch h)
    exact ⟨(hinv k v hk).1, (hinv k v hk).2.1⟩

/-- Operation sequence for C4's witness. -/
def rlOpsW : List (Int × RLOp) :=
  [(0, .allowReq (str "k")), (0, .allowReq (str "k")), (0, .sweep)]

/-- Witness for C4 at a concrete trace. -/
theorem rlRun_token_bounds_witness :
    0 ≤ (⟨(0:Int), 0⟩ : Visitor).tokens ∧
    (⟨(0:Int), 0⟩ : Visitor).tokens ≤ capacityOf rlCfgTwo :=
  (rlRun_token_bounds rlCfgTwo rlOpsW 0).2 (by decide)
    ⟨le_refl 0, le_refl 0, le_refl 0, trivial⟩ (str "k") ⟨0, 0⟩ (by decide)

/-! ### Claim C2: CORS middleware -/

/-- Counterexample configuration for C2: a wildcard entry next to a
second origin. -/
def corsCfgCE : CORSConfig := ⟨true, [star, str "http://a.com"], [], [], false, 0⟩

/-- C2 counterexample: with configured origins `["*", "http://a.com"]`
and request origin `"http://b.com"`, the code allows the origin and
sets the allow-origin header to it, although the origin matches no
configured entry exactly and the configuration is not the single
wildcard entry — refuting the claim's allowed-iff condition at this
input. -/
theorem cors_wildcard_entry_allows_any :
    (corsMiddleware corsCfgCE (str "http://b.com") (str "GET")).allowOrigin
      = some (str "http://b.com") ∧
    ¬ specCorsAllowed corsCfgCE (str "http://b.com") := by
  decide

theorem cors_singleton_iff (l : List (List Char)) (x : List Char) :
    (l.length = 1 ∧ l.head? = some x) ↔ l = [x] := by
  cases l with
  | nil => simp
  | cons a as =>
    cases as with
    | nil => simp [eq_comm]
    | cons b bs => simp

theorem cors_any_iff (l : List (List Char)) (origin : List Char) :
    (l.any (fun a => a == star || a == origin) = true) ↔
      (star ∈ l ∨ origin ∈ l) := by
  rw [List.any_eq_true]
  constructor
  · rintro ⟨a, ha, he⟩
    rw [Bool.or_eq_true, beq_iff_eq, beq_iff_eq] at he
    rcases he with rfl | rfl
    · exact Or.inl ha
    · exact Or.inr ha
  · rintro (hm | hm)
    · exact ⟨star, hm, by simp⟩
    · exact ⟨origin, hm, by simp⟩

/-- C2 (amended): when CORS is enabled, an origin is allowed iff it
exactly matches a configured entry or the configuration CONTAINS the
wildcard entry `"*"` (not only when the configuration is the single
wildcard entry); when allowed, the allow-origin header is `"*"`
exactly when the configuration is the bare wildcard `["*"]` and
otherwise the request's origin; when disallowed no CORS headers are
set; and every `OPTIONS` request is answered `204 No Content` without
invoking the next handler, regardless of the origin outcome. -/
theorem cors_amended (cfg : CORSConfig) (origin method : List Char)
    (hen : cfg.enabled = true) :
    ((corsMiddleware cfg origin method).allowOrigin ≠ none ↔
      star ∈ cfg.allowedOrigins ∨ origin ∈ cfg.allowedOrigins) ∧
    (star ∈ cfg.allowedOrigins ∨ origin ∈ cfg.allowedOrigins →
      (corsMiddleware cfg origin method).allowOrigin =
        some (if cfg.allowedOrigins = [star] then star else origin)) ∧
    (¬ (star ∈ cfg.allowedOrigins ∨ origin ∈ cfg.allowedOrigins) →
      (corsMiddleware cfg origin method).allowOrigin = none ∧
      (corsMiddleware cfg origin method).allowMethods = none ∧
      (corsMiddleware cfg origin method).allowHeaders = none ∧
      (corsMiddleware cfg origin method).credentialsHeader = false ∧
      (corsMiddleware cfg origin method).maxAgeHeader = none) ∧
    (method = str "OPTIONS" →
      (corsMiddleware cfg origin method).status = some 204 ∧
      (corsMiddleware cfg origin method).callsNext = false) ∧
    (method ≠ str "OPTIONS" →
      (corsMiddleware cfg origin method).status = none ∧
      (corsMiddleware cfg origin method).callsNext = true) := by
  rcases hA : cfg.allowedOrigins.any (fun a => a == star || a == origin) with - | -
  · have hmem : ¬ (star ∈ cfg.allowedOrigins ∨ origin ∈ cfg.allowedOrigins) := by
      rw [← cors_any_iff, hA]
      simp
    by_cases hm : method = str "OPTIONS" <;>
      simp [corsMiddleware, hen, hA, hm, hmem]
  · have hmem : star ∈ cfg.allowedOrigins ∨ origin ∈ cfg.allowedOrigins :=
      (cors_any_iff _ _).1 hA
    by_cases hm : method = str "OPTIONS" <;>
      simp [corsMiddleware, hen, hA, hm, hmem, cors_singleton_iff]

/-- Witness configuration for C2. -/
def corsCfgW : CORSConfig := ⟨true, [str "https://example.com"], [], [], false, 0⟩

/-- Witness for C2's amended theorem at concrete inputs: an `OPTIONS`
request from a disallowed origin still gets 204 and no CORS headers. -/
theorem cors_amended_witness :
    ((corsMiddleware corsCfgW (str "https://evil.com") (str "OPTIONS")).status
        = some 204 ∧
      (corsMiddleware corsCfgW (str "https://evil.com") (str "OPTIONS")).callsNext
        = false) ∧
    (corsMiddleware corsCfgW (str "https://evil.com") (str "OPTIONS")).allowOrigin
        = none :=
  ⟨(cors_amended corsCfgW (str "https://evil.com") (str "OPTIONS") rfl).2.2.2.1 rfl,
   ((cors_amended corsCfgW (str "https://evil.com") (str "OPTIONS") rfl).2.2.1
     (by decide)).1⟩

/-! ### Claim C5: the resolver's path stays within the root

Structural lemmas about `splitSep`, `joinSegs` and `cleanStack`, then
the containment theorem. -/

theorem splitSep_ne_nil (sep : Char) (l : List Char) : splitSep sep l ≠ [] := by
  cases l with
  | nil => simp [splitSep]
  | cons c cs =>
    rcases hr : splitSep sep cs with - | ⟨s, ss⟩ <;>
      by_cases h : c = sep <;> simp [splitSep, hr, h]

theorem splitSep_append (sep : Char) (a b : List Char) :
    splitSep sep (a ++ sep :: b) = splitSep sep a ++ splitSep sep b := by
  induction a with
  | nil => simp [splitSep]
  | cons c cs ih =>
    by_cases h : c = sep
    · simp [splitSep, h, ih]
    · rcases hr : splitSep sep cs with - | ⟨s, ss⟩
      · exact absurd hr (splitSep_ne_nil sep cs)
      · simp [splitSep, h, ih, hr]

theorem notMem_of_mem_splitSep (sep : Char) (l : List Char) :
    ∀ s ∈ splitSep sep l, sep ∉ s := by
  induction l with
  | nil =>
    intro s hs
    simp [splitSep] at hs
    subst hs
    simp
  | cons c cs ih =>
    intro s hs
    by_cases h : c = sep
    · simp only [splitSep, if_pos h] at hs
      rcases List.mem_cons.mp hs with rfl | hs2
      · simp
      · exact ih s hs2
    · rcases hr : splitSep sep cs with - | ⟨s0, ss⟩
      · exact absurd hr (splitSep_ne_nil sep cs)
      · simp only [splitSep, if_neg h, hr] at hs
        rcases List.mem_cons.mp hs with rfl | hs2
        · intro hmem
          rcases List.mem_cons.mp hmem with he | hmem2
          · exact h he.symm
          · exact ih s0 (by rw [hr]; exact List.mem_cons_self ..) hmem2
        · exact ih s (by rw [hr]; exact List.mem_cons_of_mem _ hs2)

theorem splitSep_sepFree (sep : Char) (s : List Char) (h : sep ∉ s) :
    splitSep sep s = [s] := by
  induction s with
  | nil => rfl
  | cons c cs ih =>
    have hc : ¬ c = sep := fun he => h (by rw [he]; exact List.mem_cons_self ..)
    have hcs : sep ∉ cs := fun hm => h (List.mem_cons_of_mem _ hm)
    simp [splitSep, hc, ih hcs]

theorem splitSep_joinSegs (l : List Seg) (hne : l ≠ [])
    (h : ∀ s ∈ l, pathSep ∉ s) : splitSep pathSep (joinSegs l) = l := by
  induction l with
  | nil => exact absurd rfl hne
  | cons s ss ih =>
    cases ss with
    | nil => exact splitSep_sepFree pathSep s (h s (by simp))
    | cons s2 rest =>
      rw [show joinSegs (s :: s2 :: rest) = s ++ pathSep :: joinSegs (s2 :: rest)
          from rfl,
        splitSep_append, splitSep_sepFree pathSep s (h s (by simp)),
        ih (by simp) (fun x hx => h x (List.mem_cons_of_mem _ hx))]
      rfl

theorem cleanStack_cons (r : Bool) (acc : List Seg) (x : Seg) (l : List Seg) :
    cleanStack r acc (x :: l) = cleanStack r (cleanStep r acc x) l := rfl

theorem cleanStack_append (r : Bool) (acc : List Seg) (xs ys : List Seg) :
    cleanStack r acc (xs ++ ys) = cleanStack r (cleanStack r acc xs) ys := by
  unfold cleanStack
  exact List.foldl_append ..

theorem cleanStep_nil (r : Bool) (acc : List Seg) : cleanStep r acc [] = acc := by
  simp [cleanStep]

theorem cleanStack_plain (r : Bool) (l : List Seg) :
    ∀ acc, (∀ s ∈ l, plainSeg s) → cleanStack r acc l = l.reverse ++ acc := by
  induction l with
  | nil => intro acc _; simp [cleanStack]
  | cons s ss ih =>
    intro acc h
    obtain ⟨h1, h2, h3⟩ := h s (by simp)
    rw [cleanStack_cons, ih _ (fun x hx => h x (List.mem_cons_of_mem _ hx)),
      show cleanStep r acc s = s :: acc from by
        unfold cleanStep
        rw [if_neg (not_or.mpr ⟨h1, h2⟩), if_neg h3]]
    simp

theorem cleanStep_skip (r : Bool) (acc : List Seg) (x : Seg)
    (h : x = [] ∨ x = ['.']) : cleanStep r acc x = acc := by
  unfold cleanStep
  rw [if_pos h]

theorem cleanStep_push (r : Bool) (acc : List Seg) (x : Seg)
    (h1 : ¬ (x = [] ∨ x = ['.'])) (h2 : x ≠ dotdot) :
    cleanStep r acc x = x :: acc := by
  unfold cleanStep
  rw [if_neg h1, if_neg h2]

theorem cleanStep_dd_nil (r : Bool) (x : Seg)
    (h1 : ¬ (x = [] ∨ x = ['.'])) (h2 : x = dotdot) :
    cleanStep r [] x = if r then [] else [dotdot] := by
  unfold cleanStep
  rw [if_neg h1, if_pos h2]

theorem cleanStep_dd_pop (r : Bool) (x top : Seg) (rest : List Seg)
    (h1 : ¬ (x = [] ∨ x = ['.'])) (h2 : x = dotdot) (ht : top ≠ dotdot) :
    cleanStep r (top :: rest) x = rest := by
  unfold cleanStep
  rw [if_neg h1, if_pos h2]
  show (if top = dotdot then x :: top :: rest else rest) = rest
  rw [if_neg ht]

theorem cleanStep_dd_keep (r : Bool) (x top : Seg) (rest : List Seg)
    (h1 : ¬ (x = [] ∨ x = ['.'])) (h2 : x = dotdot) (ht : top = dotdot) :
    cleanStep r (top :: rest) x = x :: top :: rest := by
  unfold cleanStep
  rw [if_neg h1, if_pos h2]
  show (if top = dotdot then x :: top :: rest else rest) = x :: top :: rest
  rw [if_pos ht]

theorem cleanStack_rooted_plain (segs : List Seg) :
    ∀ acc, (∀ s ∈ acc, plainSeg s) → ∀ s ∈ cleanStack true acc segs, plainSeg s := by
  induction segs with
  | nil => exact fun acc hacc => hacc
  | cons x xs ih =>
    intro acc hacc s hs
    refine ih (cleanStep true acc x) ?_ s hs
    intro y hy
    by_cases h1 : x = [] ∨ x = ['.']
    · rw [cleanStep_skip true acc x h1] at hy
      exact hacc y hy
    · by_cases h2 : x = dotdot
      · cases acc with
        | nil =>
          rw [cleanStep_dd_nil true x h1 h2] at hy
          simp at hy
        | cons top rest =>
          have ht : top ≠ dotdot := (hacc top (by simp)).2.2
          rw [cleanStep_dd_pop true x top rest h1 h2 ht] at hy
          exact hacc y (List.mem_cons_of_mem _ hy)
      · rw [cleanStep_push true acc x h1 h2] at hy
        rcases List.mem_cons.mp hy with rfl | hy2
        · exact ⟨fun he => h1 (Or.inl he), fun he => h1 (Or.inr he), h2⟩
        · exact hacc y hy2

theorem cleanStack_sepFree (r : Bool) (segs : List Seg) :
    ∀ acc, (∀ s ∈ acc, pathSep ∉ s) → (∀ s ∈ segs, pathSep ∉ s) →
      ∀ s ∈ cleanStack r acc segs, pathSep ∉ s := by
  induction segs with
  | nil => exact fun acc hacc _ => hacc
  | cons x xs ih =>
    intro acc hacc hsegs s hs
    refine ih (cleanStep r acc x) ?_
      (fun y hy => hsegs y (List.mem_cons_of_mem _ hy)) s hs
    intro y hy
    by_cases h1 : x = [] ∨ x = ['.']
    · rw [cleanStep_skip r acc x h1] at hy
      exact hacc y hy
    · by_cases h2 : x = dotdot
      · cases acc with
        | nil =>
          rw [cleanStep_dd_nil r x h1 h2] at hy
          cases r with
          | false =>
            simp at hy
            subst hy
            decide
          | true => simp at hy
        | cons top rest =>
          by_cases ht : top = dotdot
          · rw [cleanStep_dd_keep r x top rest h1 h2 ht] at hy
            rcases List.mem_cons.mp hy with rfl | hy2
            · rw [h2]; decide
            · exact hacc y hy2
          · rw [cleanStep_dd_pop r x top rest h1 h2 ht] at hy
            exact hacc y (List.mem_cons_of_mem _ hy)
      · rw [cleanStep_push r acc x h1 h2] at hy
        rcases List.mem_cons.mp hy with rfl | hy2
        · exact hsegs y (List.mem_cons_self ..)
        · exact hacc y hy2

theorem isRooted_ne_nil (p : List Char) (h : isRooted p = true) : p ≠ [] := by
  cases p with
  | nil => exact absurd h (by simp [isRooted])
  | cons c cs => simp

theorem isRooted_append (a b : List Char) (h : a ≠ []) :
    isRooted (a ++ b) = isRooted a := by
  cases a with
  | nil => exact absurd rfl h
  | cons c cs => rfl

theorem goClean_eq (q : List Char) (h : q ≠ []) :
    goClean q = renderPath (isRooted q)
      (cleanSegs (isRooted q) (splitSep pathSep q)) := by
  unfold goClean
  rw [if_neg h]

/-- C5: for every rooted request URL path — including paths containing
`".."` segments — the filesystem path the resolver stats and serves
(`filepath.Join(rootDir, filepath.Clean(urlPath))`) lies within the
configured root directory: it is the cleaned root extended only by
plain segments, so nothing outside the root is ever statted or read
for a request. -/
theorem resolvedFsPath_within_root (root p : List Char)
    (hroot : root ≠ []) (hp : isRooted p = true) :
    isWithin root (resolvedFsPath root p) := by
  have hpne : p ≠ [] := isRooted_ne_nil p hp
  have hplain : ∀ s ∈ cleanSegs true (splitSep pathSep p), plainSeg s := by
    intro s hs
    unfold cleanSegs at hs
    rw [List.mem_reverse] at hs
    exact cleanStack_rooted_plain (splitSep pathSep p) [] (by simp) s hs
  have hsf : ∀ s ∈ cleanSegs true (splitSep pathSep p), pathSep ∉ s := by
    intro s hs
    unfold cleanSegs at hs
    rw [List.mem_reverse] at hs
    exact cleanStack_sepFree true (splitSep pathSep p) [] (by simp)
      (notMem_of_mem_splitSep pathSep p) s hs
  have hcp : goClean p = renderPath true (cleanSegs true (splitSep pathSep p)) := by
    rw [goClean_eq p hpne, hp]
  have hjs : joinSegs [root, goClean p] = root ++ pathSep :: goClean p := rfl
  have hjoin : resolvedFsPath root p = goClean (root ++ pathSep :: goClean p) := by
    unfold resolvedFsPath goJoin
    rw [if_neg hroot, hjs]
  have hne2 : root ++ pathSep :: goClean p ≠ [] := by
    cases root with
    | nil => exact absurd rfl hroot
    | cons c cs => simp
  rw [hjoin, goClean_eq _ hne2, isRooted_append root _ hroot,
    splitSep_append, hcp]
  cases hps : cleanSegs true (splitSep pathSep p) with
  | nil =>
    have h1 : splitSep pathSep (renderPath true ([] : List Seg)) = [[], []] := by
      decide
    have h2 : cleanSegs (isRooted root) (splitSep pathSep root ++ [[], []])
        = cleanSegs (isRooted root) (splitSep pathSep root) := by
      unfold cleanSegs
      rw [cleanStack_append, cleanStack_cons, cleanStep_nil, cleanStack_cons,
        cleanStep_nil]
      rfl
    refine ⟨[], by simp, ?_⟩
    rw [h1, h2]
    simp
  | cons s ss =>
    have hplain2 : ∀ x ∈ s :: ss, plainSeg x := fun x hx =>
      hplain x (by rw [hps]; exact hx)
    have hsf2 : ∀ x ∈ s :: ss, pathSep ∉ x := fun x hx =>
      hsf x (by rw [hps]; exact hx)
    have h1 : renderPath true (s :: ss) = pathSep :: joinSegs (s :: ss) := rfl
    have h2 : splitSep pathSep (pathSep :: joinSegs (s :: ss))
        = [] :: splitSep pathSep (joinSegs (s :: ss)) := by
      simp [splitSep]
    have h3 : splitSep pathSep (joinSegs (s :: ss)) = s :: ss :=
      splitSep_joinSegs (s :: ss) (by simp) hsf2
    have h4 : cleanSegs (isRooted root) (splitSep pathSep root ++ [] :: s :: ss)
        = cleanSegs (isRooted root) (splitSep pathSep root) ++ s :: ss := by
      unfold cleanSegs
      rw [cleanStack_append, cleanStack_cons, cleanStep_nil,
        cleanStack_plain _ _ _ hplain2]
      simp
    refine ⟨s :: ss, hplain2, ?_⟩
    rw [h1, h2, h3, h4]

/-- Witness for C5 at a concrete traversal attempt. -/
theorem resolvedFsPath_within_root_witness :
    isWithin (str "/srv/www") (resolvedFsPath (str "/srv/www")
      (str "/../../etc/passwd")) :=
  resolvedFsPath_within_root (str "/srv/www") (str "/../../etc/passwd")
    (by decide) (by decide)

end Koryx
